import Mathlib

/-!
Verification model of the `endorfun_reversing` repository
(`sequence_preserving_elv_extractor.py`, `elv_sequence_report_generator.py`,
`sequence_preserving_music_generator.py`).

Modelling conventions:
- Python `bytes` values are `List Nat` (each entry a byte value 0-255);
- Python `str` values are `List Char`;
- NumPy float32 sample values are `ℚ` (exact rational arithmetic standing in
  for IEEE floats; all statements proved are about this idealised arithmetic);
- functions that touch the filesystem take their inputs explicitly
  (file contents as `Option (List Nat)` where `none` models a missing file,
  the audio-file inventory as an explicit list).
-/

namespace Endorfun

/-! ### Pattern scanner

Model of `_extract_audio_sequence_from_data`, which appears verbatim in both
`sequence_preserving_elv_extractor.py` (lines 77-120) and
`elv_sequence_report_generator.py` (lines 104-147).
-/

/-- Python `data.decode("ascii", errors="ignore")`: every byte `≥ 0x80` is
dropped (deleted, not replaced by a placeholder), the remaining bytes become
their ASCII characters.  Control bytes `< 0x20` are valid ASCII and are kept. -/
def decode_ascii_ignore (data : List Nat) : List Char :=
  (data.filter (fun b => decide (b < 128))).map Char.ofNat

/-- Case-insensitive match of a lowercase literal regex fragment against the
front of the text, returning the consumed characters (the captured text).
Models a literal such as `rhyth\.wav` under `re.IGNORECASE` over ASCII text. -/
def matchLit : List Char → List Char → Option (List Char)
  | [], _ => some []
  | _ :: _, [] => none
  | d :: ds, c :: cs =>
    if c = d ∨ c = d.toUpper then (matchLit ds cs).map (fun m => c :: m) else none

def rhythWavLit : List Char := ['r', 'h', 'y', 't', 'h', '.', 'w', 'a', 'v']

def rhytWavLit : List Char := ['r', 'h', 'y', 't', '.', 'w', 'a', 'v']

def nosoundLit : List Char := ['n', 'o', 's', 'o', 'u', 'n', 'd', '.', 'w', 'a', 'v']

/-- The five distinct regex shapes of the `audio_patterns` table.  Under
`re.IGNORECASE` each uppercase-literal pattern in the source denotes the same
regex function as its lowercase twin, so five shapes cover all ten entries. -/
inductive Shape where
  | numRhyth      -- r'(\d+rhyth\.wav)'
  | letterRhyth   -- r'([a-z]rhyth\.wav)'
  | bangRhyt      -- r'(!\d+rhyt\.wav)'
  | xRhyt         -- r'(x\d+rhyt\.wav)'
  | nosound       -- r'(nosound\.wav)'
deriving DecidableEq

/-- Attempt to match one regex shape at the front of the text, returning the
captured text.  Greedy `\d+` followed by a literal starting with a non-digit
is equivalent to the maximal digit run, so no backtracking is modelled. -/
def matchShape : Shape → List Char → Option (List Char)
  | .numRhyth, t =>
    let ds := t.takeWhile Char.isDigit
    if ds.isEmpty then none
    else (matchLit rhythWavLit (t.dropWhile Char.isDigit)).map (fun s => ds ++ s)
  | .letterRhyth, [] => none
  | .letterRhyth, c :: cs =>
    if c.isAlpha then (matchLit rhythWavLit cs).map (fun s => c :: s) else none
  | .bangRhyt, [] => none
  | .bangRhyt, c :: cs =>
    if c = '!' then
      let ds := cs.takeWhile Char.isDigit
      if ds.isEmpty then none
      else (matchLit rhytWavLit (cs.dropWhile Char.isDigit)).map (fun s => c :: (ds ++ s))
    else none
  | .xRhyt, [] => none
  | .xRhyt, c :: cs =>
    if c = 'x' ∨ c = 'X' then
      let ds := cs.takeWhile Char.isDigit
      if ds.isEmpty then none
      else (matchLit rhytWavLit (cs.dropWhile Char.isDigit)).map (fun s => c :: (ds ++ s))
    else none
  | .nosound, t => matchLit nosoundLit t

/-- Model of `re.finditer`: scan left to right; at each position try the
pattern; on success record `(absolute position, captured text)` and resume
after the match (matches of one pattern do not overlap); on failure advance
one character.  The fuel argument bounds the number of steps; every step
consumes at least one character, so fuel = text length is always enough. -/
def finditerAux (s : Shape) : Nat → List Char → Nat → List (Nat × List Char)
  | 0, _, _ => []
  | _, [], _ => []
  | fuel + 1, c :: rest, pos =>
    match matchShape s (c :: rest) with
    | some m => (pos, m) :: finditerAux s fuel (rest.drop (m.length - 1)) (pos + m.length)
    | none => finditerAux s fuel rest (pos + 1)

def finditer (s : Shape) (t : List Char) : List (Nat × List Char) :=
  finditerAux s t.length t 0

/-- The `audio_patterns` table.  The source lists ten regexes; under
`re.IGNORECASE` entries 6-10 (the uppercase variants) are the same regex
functions as entries 1-5, so the table repeats the five shapes. -/
def audio_patterns : List Shape :=
  [.numRhyth, .letterRhyth, .bangRhyt, .xRhyt, .nosound,
   .numRhyth, .letterRhyth, .bangRhyt, .xRhyt, .nosound]

/-- The `all_matches` list built by the scanner: for each pattern, every
`finditer` match contributes `(match.group(1).upper(), match.start())`. -/
def scan_all_matches (data : List Nat) : List (List Char × Nat) :=
  let text_data := decode_ascii_ignore data
  audio_patterns.flatMap
    (fun s => (finditer s text_data).map (fun pm => (pm.2.map Char.toUpper, pm.1)))

/-- `all_matches.sort(key=lambda x: x[1])`: a stable sort by position.  Python
uses Timsort; any stable sort computes the same function, and Mathlib's
`insertionSort` is stable. -/
def sorted_matches (data : List Nat) : List (List Char × Nat) :=
  List.insertionSort (fun a b => a.2 ≤ b.2) (scan_all_matches data)

/-- The dedup loop: walk the sorted matches, keep the first occurrence of each
filename provided `len(filename) > 4`, remembering seen filenames. -/
def dedup_keep_first : List (List Char × Nat) → List (List Char) → List (List Char × Nat)
  | [], _ => []
  | fp :: rest, seen =>
    if fp.1 ∉ seen ∧ 4 < fp.1.length then
      fp :: dedup_keep_first rest (fp.1 :: seen)
    else dedup_keep_first rest seen

/-- `_extract_audio_sequence_from_data data`: the ordered, deduplicated list of
`(filename, byte_offset)` pairs. -/
def extract_audio_sequence_from_data (data : List Nat) : List (List Char × Nat) :=
  dedup_keep_first (sorted_matches data) []

/-! ### Type classifier (`_classify_audio_file`) -/

def nosoundUpper : List Char := nosoundLit.map Char.toUpper

def rhythWavUpper : List Char := rhythWavLit.map Char.toUpper

def silenceStr : List Char := "silence".data

def systemStr : List Char := "system".data

def specialStr : List Char := "special".data

def letterRhythmStr : List Char := "letter_rhythm".data

def numberedRhythmStr : List Char := "numbered_rhythm".data

def unknownStr : List Char := "unknown".data

/-- Anchored match of `^[A-Z]RHYTH\.WAV$`. -/
def reLetterRhyth (l : List Char) : Bool :=
  match l with
  | c :: rest => c.isUpper && rest = rhythWavUpper
  | [] => false

/-- Anchored match of `^\d+RHYTH\.WAV$`. -/
def reNumRhyth (l : List Char) : Bool :=
  !(l.takeWhile Char.isDigit).isEmpty && l.dropWhile Char.isDigit = rhythWavUpper

def classify_audio_file (filename : List Char) : List Char :=
  let fu := filename.map Char.toUpper
  if fu = nosoundUpper then silenceStr
  else if fu.head? = some '!' then systemStr
  else if fu.head? = some 'X' then specialStr
  else if reLetterRhyth fu then letterRhythmStr
  else if reNumRhyth fu then numberedRhythmStr
  else unknownStr

/-! ### Availability resolver (`_check_audio_file_exists`)

The extractor variant returns `(exists, alternative)`; the report-generator
variant additionally returns the cached metadata. -/

def check_audio_file_exists (available : List (List Char)) (filename : List Char) :
    Bool × Option (List Char) :=
  let fu := filename.map Char.toUpper
  if fu ∈ available then (true, some fu)
  else
    match filename with
    | c :: rest =>
      if 4 < filename.length ∧ c.isDigit then
        let alt := rest.map Char.toUpper
        if alt ∈ available then (true, some alt) else (false, none)
      else (false, none)
    | [] => (false, none)

structure AudioMeta where
  duration : ℚ
  size_kb : Nat
deriving DecidableEq

def zeroMeta : AudioMeta := ⟨0, 0⟩

def check_audio_file_exists_meta (audio_file_info : List (List Char × AudioMeta))
    (filename : List Char) : Bool × Option (List Char) × AudioMeta :=
  let fu := filename.map Char.toUpper
  match audio_file_info.lookup fu with
  | some md => (true, some fu, md)
  | none =>
    match filename with
    | c :: rest =>
      if 4 < filename.length ∧ c.isDigit then
        let alt := rest.map Char.toUpper
        match audio_file_info.lookup alt with
        | some md => (true, some alt, md)
        | none => (false, none, zeroMeta)
      else (false, none, zeroMeta)
    | [] => (false, none, zeroMeta)

/-! ### Level parser (`parse_elv_file`) -/

/-- Python `c.isprintable()` restricted to the ASCII range (the decoded text
only contains characters `< 0x80`, where printable means `0x20`-`0x7E`). -/
def isPrintableAscii (c : Char) : Bool := 32 ≤ c.toNat && c.toNat ≤ 126

/-- Python `str.strip()` on text whose only whitespace character is a space
(all other whitespace was removed by the printable filter). -/
def stripSpaces (l : List Char) : List Char :=
  ((l.dropWhile (fun c => c == ' ')).reverse.dropWhile (fun c => c == ' ')).reverse

def lbmLit : List Char := ['.', 'l', 'b', 'm']

def endsWithLbm (l : List Char) : Bool := lbmLit.isSuffixOf l

/-- `''.join(c for c in line if c.isprintable()).strip()`. -/
def cleanLine (line : List Char) : List Char := stripSpaces (line.filter isPrintableAscii)

/-- Python `text.split('\x00')` (keeps empty fragments; `''` splits to `['']`). -/
def split_nul : List Char → List (List Char)
  | [] => [[]]
  | c :: rest =>
    if c = Char.ofNat 0 then [] :: split_nul rest
    else
      match split_nul rest with
      | [] => [[c]]
      | s :: ss => (c :: s) :: ss

/-- The title-selection loop in `parse_elv_file`: first fragment whose cleaned
form is longer than 10 characters and does not end in `.lbm`, truncated to 50. -/
def find_title : List (List Char) → Option (List Char)
  | [] => none
  | line :: rest =>
    let clean := cleanLine line
    if 10 < clean.length ∧ ¬ endsWithLbm clean then some (clean.take 50)
    else find_title rest

structure ELVAudioInfo where
  filename : List Char
  file_type : List Char
  exists_in_rloops : Bool
  sequence_position : Nat
  binary_offset : Nat
  alternative_found : Option (List Char)
deriving DecidableEq

/-- `ELVFileInfo` (the `filename` basename and timestamp fields, pure
presentation data, are omitted). -/
structure ELVFileInfo where
  filepath : List Char
  file_size : Nat
  elvd_version : Nat
  level_title : Option (List Char)
  audio_files : List ELVAudioInfo
  audio_count : Nat
  parse_success : Bool
  error_message : Option (List Char)
deriving DecidableEq

def elvdMagic : List Nat := [69, 76, 86, 68]  -- the bytes of "ELVD"

def fileNotFoundMsg : List Char := "File not found: ".data

def invalidHeaderMsg : List Char := "Invalid ELVD header".data

/-- Assembly of one `ELVAudioInfo` from the enumerated audio sequence. -/
def mkAudioInfo (available : List (List Char)) (i : Nat) (fp : List Char × Nat) :
    ELVAudioInfo :=
  let res := check_audio_file_exists available fp.1
  ⟨fp.1, classify_audio_file fp.1, res.1, i, fp.2,
    if res.2 = some (fp.1.map Char.toUpper) then none else res.2⟩

/-- Model of `parse_elv_file`.  `contents = none` models a missing file; the
function is total: every failure is recorded in the result, never thrown. -/
def parse_elv_file (available : List (List Char)) (filepath : List Char)
    (contents : Option (List Nat)) : ELVFileInfo :=
  match contents with
  | none => ⟨filepath, 0, 0, none, [], 0, false, some (fileNotFoundMsg ++ filepath)⟩
  | some file_data =>
    if file_data.length < 8 ∨ file_data.take 4 ≠ elvdMagic then
      ⟨filepath, file_data.length, 0, none, [], 0, false, some invalidHeaderMsg⟩
    else
      let version := file_data.getD 4 0 + 256 * file_data.getD 5 0
      let title := find_title (split_nul (decode_ascii_ignore (file_data.drop 8)))
      let audio_sequence := extract_audio_sequence_from_data file_data
      let afs := audio_sequence.enum.map (fun ip => mkAudioInfo available ip.1 ip.2)
      ⟨filepath, file_data.length, version, title, afs, afs.length, true, none⟩

/-- The title-selection rule exactly as the C5 claim states it: the first
null-delimited fragment of the decoded post-header bytes that consists of
printable characters only, is longer than 10 characters and does not end in
".lbm", truncated to 50 characters.  Written from the claim text, to be
compared with the rule the code implements. -/
def title_per_claim (file_data : List Nat) : Option (List Char) :=
  ((split_nul (decode_ascii_ignore (file_data.drop 8))).find?
    (fun line => line.all isPrintableAscii && decide (10 < line.length) &&
      !endsWithLbm line)).map (fun line => line.take 50)

/-- The title rule the code implements, phrased declaratively (the amended
C5): the first fragment whose printable-filtered, space-stripped form is
longer than 10 characters and does not end in ".lbm"; the title is that
cleaned form truncated to 50 characters. -/
def title_amended (file_data : List Nat) : Option (List Char) :=
  ((split_nul (decode_ascii_ignore (file_data.drop 8))).find?
    (fun line => decide (10 < (cleanLine line).length) &&
      !endsWithLbm (cleanLine line))).map (fun line => (cleanLine line).take 50)

/-! ### Sequence renderer (`generate_level_music`, `save_music`) -/

/-- One pass of the inner `for` loop: copy each clip at the cursor; when a
clip does not fit, copy only the remaining samples and stop (`break`); when
the cursor reaches the end, stop. -/
def fillPass : List (List ℚ) → List ℚ → Nat → Nat → List ℚ × Nat
  | [], buf, pos, _ => (buf, pos)
  | clip :: rest, buf, pos, target =>
    if target ≤ pos then (buf, pos)
    else
      let n := min clip.length (target - pos)
      let buf2 := buf.take pos ++ clip.take n ++ buf.drop (pos + n)
      if n < clip.length then (buf2, pos + n)
      else fillPass rest buf2 (pos + n) target

/-- The outer `while current_pos < target_samples` loop, indexed by fuel.
`none` means the fuel ran out, which models non-termination of the Python
loop: when every clip is empty the loop makes no progress and never exits. -/
def fillLoop : Nat → List (List ℚ) → List ℚ → Nat → Nat → Option (List ℚ)
  | 0, _, buf, pos, target => if pos < target then none else some buf
  | fuel + 1, clips, buf, pos, target =>
    if pos < target then
      let s := fillPass clips buf pos target
      fillLoop fuel clips s.1 s.2 target
    else some buf

/-- The fill stage of `generate_level_music` run from the zero buffer.  Fuel
`target + 1` is enough for every input on which the Python loop terminates:
each iteration that runs advances the cursor by at least one sample. -/
def fillBuffer (clips : List (List ℚ)) (target : Nat) : Option (List ℚ) :=
  fillLoop (target + 1) clips (List.replicate target 0) 0 target

/-- The Python fill loop terminates (for some fuel the model finishes). -/
def fillTerminates (clips : List (List ℚ)) (target : Nat) : Prop :=
  ∃ fuel, (fillLoop fuel clips (List.replicate target 0) 0 target).isSome

/-- `np.max(np.abs(buffer))` (0 for the empty buffer, on which NumPy raises). -/
def maxAbs (buf : List ℚ) : ℚ := buf.foldr (fun x m => max |x| m) 0

/-- The normalization step: scale by the reciprocal of the peak when the peak
exceeds 1.0, otherwise leave the buffer unchanged. -/
def normalize_buffer (buf : List ℚ) : List ℚ :=
  if 1 < maxAbs buf then buf.map (fun x => x / maxAbs buf) else buf

/-- One entry of a level record's `audio_files` list, as consumed by
`generate_level_music` (only the fields the generator reads). -/
structure AudioFileRecord where
  filename : List Char
  file_type : List Char
  sequence_position : Nat
deriving DecidableEq

/-- Model of `generate_level_music` from the clip-assembly stage on:
sort `audio_files` by `sequence_position` (Python `sorted` is stable, as is
`insertionSort`), skip silence entries, load each remaining file (`load`
models `load_audio_file`; `none` is a failed decode), fail if no clip loaded,
fill the buffer cyclically, then peak-normalize.  `fuel` bounds the unbounded
`while` loop as in `fillLoop`. -/
def generate_level_music (load : List Char → Option (List ℚ))
    (audio_files : List AudioFileRecord) (target_samples : Nat) (fuel : Nat) :
    Option (List ℚ) :=
  let audio_files_sorted := List.insertionSort
    (fun a b => a.sequence_position ≤ b.sequence_position) audio_files
  let audio_clips := audio_files_sorted.filterMap
    (fun e => if e.file_type = silenceStr then none else load e.filename)
  if audio_clips = [] then none
  else
    match fillLoop fuel audio_clips (List.replicate target_samples 0) 0 target_samples with
    | some buf => some (normalize_buffer buf)
    | none => none

/-- NumPy `astype(np.int16)` value operation before wrapping: truncation of
the float toward zero. -/
def astype_trunc (q : ℚ) : ℤ := if 0 ≤ q then ⌊q⌋ else -⌊-q⌋

/-- The 16-bit conversion in `save_music`: `(audio_data * 32767).astype(np.int16)`,
modelled as exact scaling followed by truncation toward zero. -/
def save_music_samples (buf : List ℚ) : List ℤ :=
  buf.map (fun x => astype_trunc (x * 32767))

/-! ### Scanner lemmas -/

theorem matchLit_length : ∀ {ds t m : List Char}, matchLit ds t = some m → m.length = ds.length := by
  intro ds
  induction ds with
  | nil =>
    intro t m h
    simp only [matchLit, Option.some.injEq] at h
    subst h; rfl
  | cons d ds ih =>
    intro t m h
    cases t with
    | nil => simp [matchLit] at h
    | cons c cs =>
      simp only [matchLit] at h
      split at h
      · rcases Option.map_eq_some'.mp h with ⟨a, ha, rfl⟩
        simp [ih ha]
      · exact absurd h (by simp)

theorem matchLit_take : ∀ {ds t m : List Char}, matchLit ds t = some m → t.take m.length = m := by
  intro ds
  induction ds with
  | nil =>
    intro t m h
    simp only [matchLit, Option.some.injEq] at h
    subst h; rfl
  | cons d ds ih =>
    intro t m h
    cases t with
    | nil => simp [matchLit] at h
    | cons c cs =>
      simp only [matchLit] at h
      split at h
      · rcases Option.map_eq_some'.mp h with ⟨a, ha, rfl⟩
        simp [List.take_succ_cons, ih ha]
      · exact absurd h (by simp)

theorem matchLit_cons_inv {d : Char} {ds t m : List Char}
    (h : matchLit (d :: ds) t = some m) :
    ∃ c cs a, t = c :: cs ∧ (c = d ∨ c = d.toUpper) ∧ matchLit ds cs = some a ∧ m = c :: a := by
  cases t with
  | nil => simp [matchLit] at h
  | cons c cs =>
    simp only [matchLit] at h
    split at h
    · rcases Option.map_eq_some'.mp h with ⟨a, ha, rfl⟩
      exact ⟨c, cs, a, rfl, by assumption, ha, rfl⟩
    · exact absurd h (by simp)

theorem matchShape_length_pos {s : Shape} {t m : List Char}
    (h : matchShape s t = some m) : 0 < m.length := by
  cases s with
  | numRhyth =>
    simp only [matchShape] at h
    split at h
    · exact absurd h (by simp)
    · rcases Option.map_eq_some'.mp h with ⟨a, ha, rfl⟩
      rename_i hne
      rw [List.isEmpty_iff] at hne
      have := List.length_pos.mpr hne
      simp [List.length_append]; omega
  | letterRhyth =>
    cases t with
    | nil => simp [matchShape] at h
    | cons c cs =>
      simp only [matchShape] at h
      split at h
      · rcases Option.map_eq_some'.mp h with ⟨a, ha, rfl⟩; simp
      · exact absurd h (by simp)
  | bangRhyt =>
    cases t with
    | nil => simp [matchShape] at h
    | cons c cs =>
      simp only [matchShape] at h
      split at h
      · split at h
        · exact absurd h (by simp)
        · rcases Option.map_eq_some'.mp h with ⟨a, ha, rfl⟩; simp
      · exact absurd h (by simp)
  | xRhyt =>
    cases t with
    | nil => simp [matchShape] at h
    | cons c cs =>
      simp only [matchShape] at h
      split at h
      · split at h
        · exact absurd h (by simp)
        · rcases Option.map_eq_some'.mp h with ⟨a, ha, rfl⟩; simp
      · exact absurd h (by simp)
  | nosound =>
    have := @matchLit_length nosoundLit t m (by simpa [matchShape] using h)
    simp [nosoundLit] at this
    omega

theorem matchShape_take {s : Shape} {t m : List Char}
    (h : matchShape s t = some m) : t.take m.length = m := by
  cases s with
  | numRhyth =>
    simp only [matchShape] at h
    split at h
    · exact absurd h (by simp)
    · rcases Option.map_eq_some'.mp h with ⟨a, ha, rfl⟩
      have htake := matchLit_take ha
      rw [List.length_append]
      nth_rewrite 2 [← List.takeWhile_append_dropWhile Char.isDigit t]
      rw [List.take_append, htake]
  | letterRhyth =>
    cases t with
    | nil => simp [matchShape] at h
    | cons c cs =>
      simp only [matchShape] at h
      split at h
      · rcases Option.map_eq_some'.mp h with ⟨a, ha, rfl⟩
        simp [List.take_succ_cons, matchLit_take ha]
      · exact absurd h (by simp)
  | bangRhyt =>
    cases t with
    | nil => simp [matchShape] at h
    | cons c cs =>
      simp only [matchShape] at h
      split at h
      · split at h
        · exact absurd h (by simp)
        · rcases Option.map_eq_some'.mp h with ⟨a, ha, rfl⟩
          have htake := matchLit_take ha
          simp only [List.length_cons, List.take_succ_cons, List.length_append]
          nth_rewrite 2 [← List.takeWhile_append_dropWhile Char.isDigit cs]
          rw [List.take_append, htake]
      · exact absurd h (by simp)
  | xRhyt =>
    cases t with
    | nil => simp [matchShape] at h
    | cons c cs =>
      simp only [matchShape] at h
      split at h
      · split at h
        · exact absurd h (by simp)
        · rcases Option.map_eq_some'.mp h with ⟨a, ha, rfl⟩
          have htake := matchLit_take ha
          simp only [List.length_cons, List.take_succ_cons, List.length_append]
          nth_rewrite 2 [← List.takeWhile_append_dropWhile Char.isDigit cs]
          rw [List.take_append, htake]
      · exact absurd h (by simp)
  | nosound => exact matchLit_take (by simpa [matchShape] using h)

theorem matchShape_numRhyth_head {t m : List Char}
    (h : matchShape .numRhyth t = some m) : ∃ c cs, t = c :: cs ∧ c.isDigit = true := by
  simp only [matchShape] at h
  split at h
  · exact absurd h (by simp)
  · rename_i hne
    cases t with
    | nil => simp at hne
    | cons c cs =>
      refine ⟨c, cs, rfl, ?_⟩
      cases hdc : c.isDigit with
      | true => rfl
      | false => rw [List.takeWhile_cons, hdc] at hne; simp at hne

theorem matchShape_letterRhyth_head {t m : List Char}
    (h : matchShape .letterRhyth t = some m) :
    ∃ c c2 cs, t = c :: c2 :: cs ∧ c.isAlpha = true ∧ (c2 = 'r' ∨ c2 = 'R') := by
  cases t with
  | nil => simp [matchShape] at h
  | cons c cs =>
    simp only [matchShape] at h
    split at h
    · rcases Option.map_eq_some'.mp h with ⟨a, ha, rfl⟩
      rw [show rhythWavLit = 'r' :: ['h', 'y', 't', 'h', '.', 'w', 'a', 'v'] from rfl] at ha
      obtain ⟨c2, cs2, b, rfl, hor, -, -⟩ := matchLit_cons_inv ha
      exact ⟨c, c2, cs2, rfl, by assumption, by simpa using hor⟩
    · exact absurd h (by simp)

theorem matchShape_bangRhyt_head {t m : List Char}
    (h : matchShape .bangRhyt t = some m) : ∃ cs, t = '!' :: cs := by
  cases t with
  | nil => simp [matchShape] at h
  | cons c cs =>
    simp only [matchShape] at h
    split at h
    · rename_i hc; exact ⟨cs, by rw [hc]⟩
    · exact absurd h (by simp)

theorem matchShape_xRhyt_head {t m : List Char}
    (h : matchShape .xRhyt t = some m) :
    ∃ c c2 cs, t = c :: c2 :: cs ∧ (c = 'x' ∨ c = 'X') ∧ c2.isDigit = true := by
  cases t with
  | nil => simp [matchShape] at h
  | cons c cs =>
    simp only [matchShape] at h
    split at h
    · split at h
      · exact absurd h (by simp)
      · rename_i hc hne
        cases cs with
        | nil => simp at hne
        | cons c2 cs2 =>
          refine ⟨c, c2, cs2, rfl, hc, ?_⟩
          cases hdc : c2.isDigit with
          | true => rfl
          | false => rw [List.takeWhile_cons, hdc] at hne; simp at hne
    · exact absurd h (by simp)

theorem matchShape_nosound_head {t m : List Char}
    (h : matchShape .nosound t = some m) :
    ∃ c c2 cs, t = c :: c2 :: cs ∧ (c = 'n' ∨ c = 'N') ∧ (c2 = 'o' ∨ c2 = 'O') := by
  simp only [matchShape] at h
  rw [show nosoundLit = 'n' :: 'o' :: ['s', 'o', 'u', 'n', 'd', '.', 'w', 'a', 'v'] from rfl] at h
  obtain ⟨c, cs, a, rfl, hor1, ha, -⟩ := matchLit_cons_inv h
  obtain ⟨c2, cs2, b, rfl, hor2, -, -⟩ := matchLit_cons_inv ha
  exact ⟨c, c2, cs2, rfl, by simpa using hor1, by simpa using hor2⟩

theorem isDigit_isAlpha_false {c : Char} (hd : c.isDigit = true) (ha : c.isAlpha = true) :
    False := by
  simp [Char.isDigit, Char.isAlpha, Char.isUpper, Char.isLower, Char.le_def,
    UInt32.le_def, BitVec.le_def] at hd ha
  omega

theorem excl_num_letter {t m1 m2 : List Char} (h1 : matchShape .numRhyth t = some m1)
    (h2 : matchShape .letterRhyth t = some m2) : False := by
  obtain ⟨c, cs, rfl, hd⟩ := matchShape_numRhyth_head h1
  obtain ⟨c', c2, cs2, heq, ha, -⟩ := matchShape_letterRhyth_head h2
  cases heq
  exact isDigit_isAlpha_false hd ha

theorem excl_num_bang {t m1 m2 : List Char} (h1 : matchShape .numRhyth t = some m1)
    (h2 : matchShape .bangRhyt t = some m2) : False := by
  obtain ⟨c, cs, rfl, hd⟩ := matchShape_numRhyth_head h1
  obtain ⟨cs2, heq⟩ := matchShape_bangRhyt_head h2
  cases heq
  simp at hd

theorem excl_num_x {t m1 m2 : List Char} (h1 : matchShape .numRhyth t = some m1)
    (h2 : matchShape .xRhyt t = some m2) : False := by
  obtain ⟨c, cs, rfl, hd⟩ := matchShape_numRhyth_head h1
  obtain ⟨c', c2, cs2, heq, hor, -⟩ := matchShape_xRhyt_head h2
  cases heq
  rcases hor with rfl | rfl <;> simp at hd

theorem excl_num_nosound {t m1 m2 : List Char} (h1 : matchShape .numRhyth t = some m1)
    (h2 : matchShape .nosound t = some m2) : False := by
  obtain ⟨c, cs, rfl, hd⟩ := matchShape_numRhyth_head h1
  obtain ⟨c', c2, cs2, heq, hor, -⟩ := matchShape_nosound_head h2
  cases heq
  rcases hor with rfl | rfl <;> simp at hd

theorem excl_letter_bang {t m1 m2 : List Char} (h1 : matchShape .letterRhyth t = some m1)
    (h2 : matchShape .bangRhyt t = some m2) : False := by
  obtain ⟨c, c2, cs, rfl, ha, -⟩ := matchShape_letterRhyth_head h1
  obtain ⟨cs2, heq⟩ := matchShape_bangRhyt_head h2
  cases heq
  simp at ha

theorem excl_letter_x {t m1 m2 : List Char} (h1 : matchShape .letterRhyth t = some m1)
    (h2 : matchShape .xRhyt t = some m2) : False := by
  obtain ⟨c, c2, cs, rfl, -, hor1⟩ := matchShape_letterRhyth_head h1
  obtain ⟨c', c2', cs2, heq, -, hd⟩ := matchShape_xRhyt_head h2
  cases heq
  rcases hor1 with rfl | rfl <;> simp at hd

theorem excl_letter_nosound {t m1 m2 : List Char} (h1 : matchShape .letterRhyth t = some m1)
    (h2 : matchShape .nosound t = some m2) : False := by
  obtain ⟨c, c2, cs, rfl, -, hor1⟩ := matchShape_letterRhyth_head h1
  obtain ⟨c', c2', cs2, heq, -, hor2⟩ := matchShape_nosound_head h2
  cases heq
  rcases hor1 with rfl | rfl <;> rcases hor2 with h3 | h3 <;> exact absurd h3 (by decide)

theorem excl_bang_x {t m1 m2 : List Char} (h1 : matchShape .bangRhyt t = some m1)
    (h2 : matchShape .xRhyt t = some m2) : False := by
  obtain ⟨cs, rfl⟩ := matchShape_bangRhyt_head h1
  obtain ⟨c', c2', cs2, heq, hor, -⟩ := matchShape_xRhyt_head h2
  cases heq
  rcases hor with h3 | h3 <;> exact absurd h3 (by decide)

theorem excl_bang_nosound {t m1 m2 : List Char} (h1 : matchShape .bangRhyt t = some m1)
    (h2 : matchShape .nosound t = some m2) : False := by
  obtain ⟨cs, rfl⟩ := matchShape_bangRhyt_head h1
  obtain ⟨c', c2', cs2, heq, hor, -⟩ := matchShape_nosound_head h2
  cases heq
  rcases hor with h3 | h3 <;> exact absurd h3 (by decide)

theorem excl_x_nosound {t m1 m2 : List Char} (h1 : matchShape .xRhyt t = some m1)
    (h2 : matchShape .nosound t = some m2) : False := by
  obtain ⟨c, c2, cs, rfl, hor1, -⟩ := matchShape_xRhyt_head h1
  obtain ⟨c', c2', cs2, heq, hor2, -⟩ := matchShape_nosound_head h2
  cases heq
  rcases hor1 with rfl | rfl <;> rcases hor2 with h3 | h3 <;> exact absurd h3 (by decide)

/-- At a fixed position of a fixed text, every pattern of the catalog that
matches captures the same text: the five shapes are mutually exclusive on
their first two characters, and each single shape is a function. -/
theorem matchShape_det {s1 s2 : Shape} {t m1 m2 : List Char}
    (h1 : matchShape s1 t = some m1) (h2 : matchShape s2 t = some m2) : m1 = m2 := by
  cases s1 <;> cases s2
  case numRhyth.numRhyth => exact Option.some.inj (h1.symm.trans h2)
  case letterRhyth.letterRhyth => exact Option.some.inj (h1.symm.trans h2)
  case bangRhyt.bangRhyt => exact Option.some.inj (h1.symm.trans h2)
  case xRhyt.xRhyt => exact Option.some.inj (h1.symm.trans h2)
  case nosound.nosound => exact Option.some.inj (h1.symm.trans h2)
  case numRhyth.letterRhyth => exact (excl_num_letter h1 h2).elim
  case letterRhyth.numRhyth => exact (excl_num_letter h2 h1).elim
  case numRhyth.bangRhyt => exact (excl_num_bang h1 h2).elim
  case bangRhyt.numRhyth => exact (excl_num_bang h2 h1).elim
  case numRhyth.xRhyt => exact (excl_num_x h1 h2).elim
  case xRhyt.numRhyth => exact (excl_num_x h2 h1).elim
  case numRhyth.nosound => exact (excl_num_nosound h1 h2).elim
  case nosound.numRhyth => exact (excl_num_nosound h2 h1).elim
  case letterRhyth.bangRhyt => exact (excl_letter_bang h1 h2).elim
  case bangRhyt.letterRhyth => exact (excl_letter_bang h2 h1).elim
  case letterRhyth.xRhyt => exact (excl_letter_x h1 h2).elim
  case xRhyt.letterRhyth => exact (excl_letter_x h2 h1).elim
  case letterRhyth.nosound => exact (excl_letter_nosound h1 h2).elim
  case nosound.letterRhyth => exact (excl_letter_nosound h2 h1).elim
  case bangRhyt.xRhyt => exact (excl_bang_x h1 h2).elim
  case xRhyt.bangRhyt => exact (excl_bang_x h2 h1).elim
  case bangRhyt.nosound => exact (excl_bang_nosound h1 h2).elim
  case nosound.bangRhyt => exact (excl_bang_nosound h2 h1).elim
  case xRhyt.nosound => exact (excl_x_nosound h1 h2).elim
  case nosound.xRhyt => exact (excl_x_nosound h2 h1).elim

theorem finditerAux_sound {s : Shape} :
    ∀ (fuel : Nat) (t : List Char) (pos p : Nat) (m : List Char),
      (p, m) ∈ finditerAux s fuel t pos →
      ∃ k, p = pos + k ∧ matchShape s (t.drop k) = some m := by
  intro fuel
  induction fuel with
  | zero => intro t pos p m h; simp [finditerAux] at h
  | succ n ih =>
    intro t pos p m h
    cases t with
    | nil => simp [finditerAux] at h
    | cons c rest =>
      rw [finditerAux] at h
      cases hm : matchShape s (c :: rest) with
      | none =>
        rw [hm] at h
        obtain ⟨k, hk, hmk⟩ := ih rest (pos + 1) p m h
        refine ⟨k + 1, by omega, ?_⟩
        simpa using hmk
      | some m0 =>
        rw [hm] at h
        rcases List.mem_cons.mp h with h1 | h1
        · injection h1 with hp hm2
          subst hp; subst hm2
          exact ⟨0, by omega, by simpa using hm⟩
        · obtain ⟨k, hk, hmk⟩ := ih _ _ _ _ h1
          have hpos := matchShape_length_pos hm
          refine ⟨m0.length + k, by omega, ?_⟩
          rw [List.drop_drop] at hmk
          have hsame : (c :: rest).drop (m0.length + k) = rest.drop (m0.length - 1 + k) := by
            have harith : m0.length + k = (m0.length - 1 + k) + 1 := by omega
            rw [harith, List.drop_succ_cons]
          rw [hsame]; exact hmk

/-- Every `all_matches` entry arises from some pattern matching the decoded
text exactly at the recorded position, with the filename the uppercased
captured text. -/
theorem scan_all_matches_mem {data : List Nat} {f : List Char} {p : Nat}
    (h : (f, p) ∈ scan_all_matches data) :
    ∃ s m, matchShape s ((decode_ascii_ignore data).drop p) = some m ∧
      f = m.map Char.toUpper := by
  simp only [scan_all_matches, List.mem_flatMap, List.mem_map] at h
  obtain ⟨s, -, ⟨pos, m⟩, hpm, heq⟩ := h
  rw [finditer] at hpm
  obtain ⟨k, hk, hmk⟩ := finditerAux_sound _ _ _ _ _ hpm
  injection heq with h1 h2
  subst h1; subst h2
  have hkp : k = pos := by omega
  rw [hkp] at hmk
  exact ⟨s, m, hmk, rfl⟩

/-- C1 (amended): the offsets recorded by the pattern scanner are offsets into
the lossily decoded text, in which bytes `≥ 0x80` have been deleted (shifting
later positions); they equal byte offsets into the original blob whenever the
blob consists of ASCII bytes (`< 0x80`) only.  For such blobs every recorded
match `(filename, position)` names exactly the uppercased bytes found at that
byte offset of the blob.  Scanning is a total function of the blob, so it
never raises. -/
theorem C1_scan_offsets_of_ascii (data : List Nat) (hascii : ∀ b ∈ data, b < 128)
    {f : List Char} {p : Nat} (h : (f, p) ∈ scan_all_matches data) :
    ((data.drop p).take f.length).map (fun b => (Char.ofNat b).toUpper) = f := by
  obtain ⟨s, m, hm, rfl⟩ := scan_all_matches_mem h
  have hdecode : decode_ascii_ignore data = data.map Char.ofNat := by
    rw [decode_ascii_ignore, List.filter_eq_self.mpr]
    intro b hb
    simpa using hascii b hb
  have htake := matchShape_take hm
  rw [hdecode] at htake
  rw [List.length_map]
  calc ((data.drop p).take m.length).map (fun b => (Char.ofNat b).toUpper)
      = (((data.drop p).take m.length).map Char.ofNat).map Char.toUpper := by
        rw [List.map_map]; rfl
    _ = (((data.map Char.ofNat).drop p).take m.length).map Char.toUpper := by
        rw [List.map_take, List.map_drop]
    _ = m.map Char.toUpper := by rw [htake]

/-- C1 (counterexample to the claim as stated): for the blob consisting of the
byte 0xFF followed by the ASCII bytes of "123rhyth.wav", the scanner records a
match at position 0, but the token starts at byte offset 1 of the blob:
`errors="ignore"` deletes the 0xFF byte and shifts every later position, so
the recorded offset does not point at the matched token in the original
blob. -/
theorem C1_counterexample :
    ("123RHYTH.WAV".data, 0) ∈
      scan_all_matches [255, 49, 50, 51, 114, 104, 121, 116, 104, 46, 119, 97, 118] ∧
    ¬ ((([255, 49, 50, 51, 114, 104, 121, 116, 104, 46, 119, 97, 118] : List Nat).drop 0).take
        "123RHYTH.WAV".data.length).map (fun b => (Char.ofNat b).toUpper) =
      "123RHYTH.WAV".data := by
  decide

/-- C1 witness: the amended statement evaluated on the all-ASCII blob
"123rhyth.wav", whose single match is recorded at its true byte offset 0. -/
theorem C1_scan_offsets_of_ascii_witness :
    (("123RHYTH.WAV".data, 0) ∈
      scan_all_matches [49, 50, 51, 114, 104, 121, 116, 104, 46, 119, 97, 118]) ∧
    ((([49, 50, 51, 114, 104, 121, 116, 104, 46, 119, 97, 118] : List Nat).drop 0).take
      "123RHYTH.WAV".data.length).map (fun b => (Char.ofNat b).toUpper) = "123RHYTH.WAV".data :=
  ⟨by decide, C1_scan_offsets_of_ascii _ (by decide) (by decide)⟩

/-! ### Dedup and ordering lemmas -/

theorem dedup_mem_sub : ∀ {l : List (List Char × Nat)} {seen : List (List Char)}
    {fp : List Char × Nat}, fp ∈ dedup_keep_first l seen →
    fp ∈ l ∧ fp.1 ∉ seen ∧ 4 < fp.1.length := by
  intro l
  induction l with
  | nil => intro seen fp h; simp [dedup_keep_first] at h
  | cons hd tl ih =>
    intro seen fp h
    rw [dedup_keep_first] at h
    split at h
    · rcases List.mem_cons.mp h with rfl | h1
      · rename_i hcond
        exact ⟨List.mem_cons_self _ _, hcond.1, hcond.2⟩
      · obtain ⟨hmem, hnseen, hlen⟩ := ih h1
        refine ⟨List.mem_cons_of_mem _ hmem, ?_, hlen⟩
        intro hc
        exact hnseen (List.mem_cons_of_mem _ hc)
    · obtain ⟨hmem, hnseen, hlen⟩ := ih h
      exact ⟨List.mem_cons_of_mem _ hmem, hnseen, hlen⟩

theorem dedup_sublist : ∀ (l : List (List Char × Nat)) (seen : List (List Char)),
    (dedup_keep_first l seen).Sublist l := by
  intro l
  induction l with
  | nil => intro seen; simp [dedup_keep_first]
  | cons hd tl ih =>
    intro seen
    rw [dedup_keep_first]
    split
    · exact (ih _).cons₂ hd
    · exact (ih _).cons hd

theorem dedup_filenames_nodup : ∀ (l : List (List Char × Nat)) (seen : List (List Char)),
    ((dedup_keep_first l seen).map Prod.fst).Nodup := by
  intro l
  induction l with
  | nil => intro seen; simp [dedup_keep_first]
  | cons hd tl ih =>
    intro seen
    rw [dedup_keep_first]
    split
    · simp only [List.map_cons, List.nodup_cons]
      refine ⟨?_, ih _⟩
      intro hc
      obtain ⟨fp, hfp, hfst⟩ := List.mem_map.mp hc
      have := (dedup_mem_sub hfp).2.1
      rw [hfst] at this
      exact this (List.mem_cons_self _ _)
    · exact ih _

theorem dedup_min_offset : ∀ {l : List (List Char × Nat)} {seen : List (List Char)},
    List.Pairwise (fun a b => a.2 ≤ b.2) l →
    ∀ {f : List Char} {p : Nat}, (f, p) ∈ dedup_keep_first l seen →
    ∀ q, (f, q) ∈ l → p ≤ q := by
  intro l
  induction l with
  | nil => intro seen _ f p h; simp [dedup_keep_first] at h
  | cons hd tl ih =>
    intro seen hpw f p h q hq
    have hpw2 := List.pairwise_cons.mp hpw
    rw [dedup_keep_first] at h
    split at h
    · rcases List.mem_cons.mp h with heq | h1
      · rcases List.mem_cons.mp hq with heq2 | hq2
        · have heq3 := heq.trans heq2.symm
          injection heq3 with hf2 hp2
          omega
        · have hle := hpw2.1 _ hq2
          rw [← heq] at hle
          exact hle
      · have hnotin := (dedup_mem_sub h1).2.1
        have hne : f ≠ hd.1 := fun hc => hnotin (hc ▸ List.mem_cons_self _ _)
        rcases List.mem_cons.mp hq with heq2 | hq2
        · exact absurd (congrArg Prod.fst heq2) hne
        · exact ih hpw2.2 h1 q hq2
    · have hnotin := (dedup_mem_sub h).2.1
      have hlen := (dedup_mem_sub h).2.2
      rcases List.mem_cons.mp hq with heq2 | hq2
      · rename_i hcond
        rw [← heq2] at hcond
        simp only [not_and, not_not] at hcond
        by_cases hseen : f ∈ seen
        · exact absurd hseen hnotin
        · exact absurd hlen (by simpa using hcond (by simpa using hseen))
      · exact ih hpw2.2 h q hq2

/-- Two scanner matches at the same position carry the same filename. -/
theorem scan_same_pos_same_filename {data : List Nat} {f1 f2 : List Char} {p : Nat}
    (h1 : (f1, p) ∈ scan_all_matches data) (h2 : (f2, p) ∈ scan_all_matches data) :
    f1 = f2 := by
  obtain ⟨s1, m1, hm1, rfl⟩ := scan_all_matches_mem h1
  obtain ⟨s2, m2, hm2, rfl⟩ := scan_all_matches_mem h2
  rw [matchShape_det hm1 hm2]

theorem sorted_matches_pairwise (data : List Nat) :
    List.Pairwise (fun a b : List Char × Nat => a.2 ≤ b.2) (sorted_matches data) := by
  haveI : IsTotal (List Char × Nat) (fun a b => a.2 ≤ b.2) := ⟨fun a b => Nat.le_total a.2 b.2⟩
  haveI : IsTrans (List Char × Nat) (fun a b => a.2 ≤ b.2) := ⟨fun _ _ _ => Nat.le_trans⟩
  exact List.sorted_insertionSort _ _

theorem sorted_matches_perm (data : List Nat) :
    (sorted_matches data).Perm (scan_all_matches data) :=
  List.perm_insertionSort _ _

/-- The deduplicated sequence has strictly increasing byte offsets. -/
theorem extract_strict_mono (data : List Nat) :
    List.Pairwise (fun a b : List Char × Nat => a.2 < b.2)
      (extract_audio_sequence_from_data data) := by
  have hle : List.Pairwise (fun a b : List Char × Nat => a.2 ≤ b.2)
      (extract_audio_sequence_from_data data) :=
    (sorted_matches_pairwise data).sublist (dedup_sublist _ _)
  have hnodup := dedup_filenames_nodup (sorted_matches data) []
  have hne : List.Pairwise (fun a b : List Char × Nat => a.1 ≠ b.1)
      (extract_audio_sequence_from_data data) := by
    rw [List.Nodup, List.pairwise_map] at hnodup
    exact hnodup
  refine List.Pairwise.imp_of_mem ?_ (hle.and hne)
  intro a b ha hb hab
  rcases Nat.lt_or_ge a.2 b.2 with hlt | hge
  · exact hlt
  · exfalso
    have heq : a.2 = b.2 := by omega
    have ha2 : (a.1, a.2) ∈ scan_all_matches data :=
      (sorted_matches_perm data).subset ((dedup_sublist _ _).subset ha)
    have hb2 : (b.1, a.2) ∈ scan_all_matches data := by
      rw [heq]
      exact (sorted_matches_perm data).subset ((dedup_sublist _ _).subset hb)
    exact hab.2 (scan_same_pos_same_filename ha2 hb2)

theorem assembled_positions (available : List (List Char)) (seq : List (List Char × Nat)) :
    ((seq.enum.map (fun ip => mkAudioInfo available ip.1 ip.2)).map
      (fun a => a.sequence_position)) = List.range seq.length := by
  rw [List.map_map]
  exact List.enum_map_fst seq

theorem assembled_offsets (available : List (List Char)) (seq : List (List Char × Nat)) :
    ((seq.enum.map (fun ip => mkAudioInfo available ip.1 ip.2)).map
      (fun a => a.binary_offset)) = seq.map (fun fp => fp.2) := by
  rw [List.map_map]
  calc seq.enum.map (fun ip : Nat × (List Char × Nat) => ip.2.2)
      = (seq.enum.map Prod.snd).map (fun fp => fp.2) := by rw [List.map_map]; rfl
    _ = seq.map (fun fp => fp.2) := by rw [List.enum_map_snd]

theorem assembled_filenames (available : List (List Char)) (seq : List (List Char × Nat)) :
    ((seq.enum.map (fun ip => mkAudioInfo available ip.1 ip.2)).map
      (fun a => a.filename)) = seq.map (fun fp => fp.1) := by
  rw [List.map_map]
  calc seq.enum.map (fun ip : Nat × (List Char × Nat) => ip.2.1)
      = (seq.enum.map Prod.snd).map (fun fp => fp.1) := by rw [List.map_map]; rfl
    _ = seq.map (fun fp => fp.1) := by rw [List.enum_map_snd]

theorem assembled_mem {available : List (List Char)} {seq : List (List Char × Nat)}
    {a : ELVAudioInfo} (h : a ∈ seq.enum.map (fun ip => mkAudioInfo available ip.1 ip.2)) :
    (a.filename, a.binary_offset) ∈ seq := by
  obtain ⟨⟨i, fp⟩, hmem, rfl⟩ := List.mem_map.mp h
  have hget := List.mem_enum_iff_getElem?.mp hmem
  obtain ⟨hlt, heq⟩ := List.getElem?_eq_some.mp hget
  show (fp.1, fp.2) ∈ seq
  have hfp : fp ∈ seq := by
    have := List.getElem_mem hlt
    rw [heq] at this
    exact this
  exact hfp

/-- C3: for every inventory, filepath and file contents, the audio-reference
list built by the parser satisfies: the `sequence_position` values are exactly
`0..n-1` in list order; the `binary_offset` values are strictly increasing in
list order; every entry's offset is the lowest offset at which the scanner
matched its normalized filename; and no normalized filename appears twice. -/
theorem C3_sequence_invariants (available : List (List Char)) (filepath : List Char)
    (contents : Option (List Nat)) :
    ((parse_elv_file available filepath contents).audio_files.map
        (fun a => a.sequence_position) =
      List.range (parse_elv_file available filepath contents).audio_files.length) ∧
    List.Pairwise (fun a b => a.binary_offset < b.binary_offset)
      (parse_elv_file available filepath contents).audio_files ∧
    (∀ a ∈ (parse_elv_file available filepath contents).audio_files,
      ∀ q, (a.filename, q) ∈ scan_all_matches (contents.getD []) →
        a.binary_offset ≤ q) ∧
    ((parse_elv_file available filepath contents).audio_files.map
        (fun a => a.filename)).Nodup := by
  cases contents with
  | none => simp [parse_elv_file]
  | some bytes =>
    rw [parse_elv_file]
    split
    · simp
    · dsimp only
      refine ⟨?_, ?_, ?_, ?_⟩
      · have hlen : ((extract_audio_sequence_from_data bytes).enum.map
            (fun ip => mkAudioInfo available ip.1 ip.2)).length =
            (extract_audio_sequence_from_data bytes).length := by
          rw [List.length_map, List.enum_length]
        rw [hlen]
        exact assembled_positions available _
      · have hmono := extract_strict_mono bytes
        rw [← List.enum_map_snd (extract_audio_sequence_from_data bytes),
          List.pairwise_map] at hmono
        rw [List.pairwise_map]
        exact hmono
      · intro a ha q hq
        have hmem := assembled_mem ha
        exact dedup_min_offset (sorted_matches_pairwise bytes) hmem q
          ((sorted_matches_perm bytes).mem_iff.mpr hq)
      · rw [assembled_filenames]
        exact dedup_filenames_nodup _ _

/-! ### Title extraction lemmas -/

theorem find_title_eq_find? (ls : List (List Char)) :
    find_title ls = (ls.find? (fun line =>
      decide (10 < (cleanLine line).length) && !endsWithLbm (cleanLine line))).map
      (fun line => (cleanLine line).take 50) := by
  induction ls with
  | nil => rfl
  | cons line rest ih =>
    rw [find_title, List.find?]
    cases hb : (decide (10 < (cleanLine line).length) && !endsWithLbm (cleanLine line)) with
    | true =>
      simp only [Bool.and_eq_true, decide_eq_true_eq, Bool.not_eq_eq_eq_not,
        Bool.not_true] at hb
      rw [if_pos]
      · rfl
      · exact ⟨hb.1, by simp [hb.2]⟩
    | false =>
      rw [if_neg]
      · exact ih
      · intro hc
        have hb2 : (decide (10 < (cleanLine line).length) &&
            !endsWithLbm (cleanLine line)) = true := by
          simp [hc.1, hc.2]
        rw [hb] at hb2
        exact Bool.false_ne_true hb2

/-- C5 (amended): for every well-formed level file, the extracted title is
obtained from the first null-delimited post-header fragment whose
printable-filtered, space-stripped form is longer than 10 characters and does
not end with ".lbm"; the title is that cleaned form truncated to 50
characters, and it is absent when no fragment qualifies.  (The code filters
the non-printable characters out of a fragment rather than requiring the
fragment to be printable-only, and it strips surrounding spaces.) -/
theorem C5_title_amended (available : List (List Char)) (filepath : List Char)
    (bytes : List Nat) (hlen : ¬ bytes.length < 8) (hmagic : bytes.take 4 = elvdMagic) :
    (parse_elv_file available filepath (some bytes)).level_title = title_amended bytes := by
  rw [parse_elv_file, if_neg (by simp [hlen, hmagic])]
  dsimp only
  rw [find_title_eq_find?]
  rfl

/-- C5 (counterexample to the claim as stated): for the file
"ELVD" ++ version bytes ++ "AAAAA\x01BBBBBBB", no fragment decodes to
printable characters only (the 0x01 byte survives the lossy decode), so the
claimed rule yields no title; the code instead filters the 0x01 out and
produces the title "AAAAABBBBBBB". -/
theorem C5_counterexample :
    (parse_elv_file [] [] (some [69, 76, 86, 68, 1, 0, 0, 0,
        65, 65, 65, 65, 65, 1, 66, 66, 66, 66, 66, 66, 66])).level_title =
      some "AAAAABBBBBBB".data ∧
    title_per_claim [69, 76, 86, 68, 1, 0, 0, 0,
        65, 65, 65, 65, 65, 1, 66, 66, 66, 66, 66, 66, 66] = none ∧
    (parse_elv_file [] [] (some [69, 76, 86, 68, 1, 0, 0, 0,
        65, 65, 65, 65, 65, 1, 66, 66, 66, 66, 66, 66, 66])).level_title ≠
      title_per_claim [69, 76, 86, 68, 1, 0, 0, 0,
        65, 65, 65, 65, 65, 1, 66, 66, 66, 66, 66, 66, 66] := by
  refine ⟨by decide, by decide, ?_⟩
  decide

/-- C5 witness: the amended statement evaluated on the same concrete file. -/
theorem C5_title_amended_witness :
    ¬ ([69, 76, 86, 68, 1, 0, 0, 0,
        65, 65, 65, 65, 65, 1, 66, 66, 66, 66, 66, 66, 66] : List Nat).length < 8 ∧
    ([69, 76, 86, 68, 1, 0, 0, 0,
        65, 65, 65, 65, 65, 1, 66, 66, 66, 66, 66, 66, 66] : List Nat).take 4 = elvdMagic ∧
    (parse_elv_file [] [] (some [69, 76, 86, 68, 1, 0, 0, 0,
        65, 65, 65, 65, 65, 1, 66, 66, 66, 66, 66, 66, 66])).level_title =
      title_amended [69, 76, 86, 68, 1, 0, 0, 0,
        65, 65, 65, 65, 65, 1, 66, 66, 66, 66, 66, 66, 66] :=
  ⟨by decide, by decide, C5_title_amended [] [] _ (by decide) (by decide)⟩

/-- C7: parsing never raises in the model (`parse_elv_file` is a total
function of its inputs), and for a missing file, a file shorter than 8 bytes,
or a file whose first four bytes are not the "ELVD" magic, the result carries
an error marker, has `parse_success = false`, an empty audio sequence and
`audio_count = 0`.  Any other failure in the source is caught by the
enclosing `try/except` and recorded in `error_message` the same way. -/
theorem C7_parse_total_errors (available : List (List Char)) (filepath : List Char)
    (contents : Option (List Nat))
    (h : contents = none ∨ ∃ bytes, contents = some bytes ∧
      (bytes.length < 8 ∨ bytes.take 4 ≠ elvdMagic)) :
    (parse_elv_file available filepath contents).parse_success = false ∧
    (parse_elv_file available filepath contents).error_message.isSome ∧
    (parse_elv_file available filepath contents).audio_files = [] ∧
    (parse_elv_file available filepath contents).audio_count = 0 := by
  rcases h with rfl | ⟨bytes, rfl, hbad⟩
  · simp [parse_elv_file]
  · rw [parse_elv_file]
    rw [if_pos hbad]
    simp

/-- C7 witness: a missing file and a short file, both yielding marked failure
results. -/
theorem C7_parse_total_errors_witness :
    ((parse_elv_file [] [] none).parse_success = false ∧
      (parse_elv_file [] [] none).error_message.isSome ∧
      (parse_elv_file [] [] none).audio_files = [] ∧
      (parse_elv_file [] [] none).audio_count = 0) ∧
    ((parse_elv_file [] [] (some [69, 76])).parse_success = false ∧
      (parse_elv_file [] [] (some [69, 76])).error_message.isSome ∧
      (parse_elv_file [] [] (some [69, 76])).audio_files = [] ∧
      (parse_elv_file [] [] (some [69, 76])).audio_count = 0) :=
  ⟨C7_parse_total_errors [] [] none (Or.inl rfl),
    C7_parse_total_errors [] [] (some [69, 76])
      (Or.inr ⟨[69, 76], rfl, Or.inl (by decide)⟩)⟩

/-! ### Resolver lemmas -/

/-- C6: resolution order of `_check_audio_file_exists` (report-generator
variant, which also returns metadata), for filenames of ASCII characters
(on which Python's Unicode `str.upper` and `str.isdigit` agree with the
ASCII `Char.toUpper` and `Char.isDigit` of the model): an exact
case-insensitive inventory hit returns found with the uppercased name and its
metadata; otherwise, when the filename is longer than 4 characters and starts
with an ASCII digit, exactly that one leading character is stripped and the
remainder retried — the only fallback — returning found with the stripped
name as alias; in every other case the result is not-found with zero
metadata. -/
theorem C6_resolver (info : List (List Char × AudioMeta)) (filename : List Char)
    (hascii : ∀ c ∈ filename, c.toNat < 128) :
    (∀ md, info.lookup (filename.map Char.toUpper) = some md →
      check_audio_file_exists_meta info filename =
        (true, some (filename.map Char.toUpper), md)) ∧
    (info.lookup (filename.map Char.toUpper) = none →
      ∀ c rest, filename = c :: rest → 4 < filename.length → c.isDigit = true →
      ∀ md, info.lookup (rest.map Char.toUpper) = some md →
        check_audio_file_exists_meta info filename =
          (true, some (rest.map Char.toUpper), md)) ∧
    (info.lookup (filename.map Char.toUpper) = none →
      (∀ c rest, filename = c :: rest → 4 < filename.length → c.isDigit = true →
        info.lookup (rest.map Char.toUpper) = none) →
      check_audio_file_exists_meta info filename = (false, none, zeroMeta)) := by
  refine ⟨?_, ?_, ?_⟩
  · intro md hmd
    simp [check_audio_file_exists_meta, hmd]
  · intro h0 c rest heq hlen hdig md hmd
    subst heq
    rw [check_audio_file_exists_meta]
    simp only [h0]
    rw [if_pos ⟨hlen, hdig⟩]
    simp [hmd]
  · intro h0 hno
    cases hf : filename with
    | nil =>
      subst hf
      rw [check_audio_file_exists_meta]
      simp only [h0]
    | cons c rest =>
      subst hf
      rw [check_audio_file_exists_meta]
      simp only [h0]
      by_cases hcond : 4 < (c :: rest).length ∧ c.isDigit = true
      · rw [if_pos hcond]
        have := hno c rest rfl hcond.1 hcond.2
        simp [this]
      · rw [if_neg hcond]

/-- C6 witness: the claim's two concrete examples, obtained by instantiating
the theorem at filename "6970RHYTH.WAV" against the inventory containing
"970RHYTH.WAV" (fallback fires) and against the empty inventory (not
found). -/
theorem C6_resolver_witness :
    check_audio_file_exists_meta [("970RHYTH.WAV".data, ⟨2, 5⟩)] "6970RHYTH.WAV".data =
      (true, some "970RHYTH.WAV".data, (⟨2, 5⟩ : AudioMeta)) ∧
    check_audio_file_exists_meta [] "6970RHYTH.WAV".data = (false, none, zeroMeta) := by
  constructor
  · exact (C6_resolver [("970RHYTH.WAV".data, ⟨2, 5⟩)] "6970RHYTH.WAV".data
      (by decide)).2.1 (by decide) '6' "970RHYTH.WAV".data (by decide) (by decide)
      (by decide) _ (by decide)
  · exact (C6_resolver [] "6970RHYTH.WAV".data (by decide)).2.2 (by decide)
      (fun _ _ _ _ _ => rfl)

/-! ### Renderer fill-loop lemmas -/

theorem fillPass_done {clips : List (List ℚ)} {buf : List ℚ} {pos target : Nat}
    (h : target ≤ pos) : fillPass clips buf pos target = (buf, pos) := by
  cases clips with
  | nil => rfl
  | cons clip rest => rw [fillPass, if_pos h]

theorem fillPass_fit {clip : List ℚ} {rest : List (List ℚ)} {buf : List ℚ}
    {pos target : Nat} (hlt : pos < target) (hfit : clip.length ≤ target - pos) :
    fillPass (clip :: rest) buf pos target =
      fillPass rest (buf.take pos ++ clip ++ buf.drop (pos + clip.length))
        (pos + clip.length) target := by
  rw [fillPass, if_neg (by omega)]
  dsimp only
  rw [show min clip.length (target - pos) = clip.length by omega]
  rw [if_neg (by omega), List.take_length]

theorem fillPass_trunc {clip : List ℚ} {rest : List (List ℚ)} {buf : List ℚ}
    {pos target : Nat} (hlt : pos < target) (hbig : target - pos < clip.length) :
    fillPass (clip :: rest) buf pos target =
      (buf.take pos ++ clip.take (target - pos) ++ buf.drop target, target) := by
  rw [fillPass, if_neg (by omega)]
  dsimp only
  rw [show min clip.length (target - pos) = target - pos by omega]
  rw [if_pos hbig]
  rw [show pos + (target - pos) = target by omega]

theorem fillLoop_of_ge {fuel : Nat} {clips : List (List ℚ)} {buf : List ℚ}
    {pos target : Nat} (h : target ≤ pos) :
    fillLoop fuel clips buf pos target = some buf := by
  cases fuel with
  | zero => rw [fillLoop, if_neg (by omega)]
  | succ n => rw [fillLoop, if_neg (by omega)]

theorem fillLoop_step {fuel : Nat} {clips : List (List ℚ)} {buf : List ℚ}
    {pos target : Nat} (h : pos < target) :
    fillLoop (fuel + 1) clips buf pos target =
      fillLoop fuel clips (fillPass clips buf pos target).1
        (fillPass clips buf pos target).2 target := by
  rw [fillLoop, if_pos h]

theorem fillLoop_mono {fuel1 fuel2 : Nat} {clips : List (List ℚ)} {buf : List ℚ}
    {pos target : Nat} {res : List ℚ} (hle : fuel1 ≤ fuel2)
    (h : fillLoop fuel1 clips buf pos target = some res) :
    fillLoop fuel2 clips buf pos target = some res := by
  induction fuel1 generalizing fuel2 buf pos with
  | zero =>
    rw [fillLoop] at h
    split at h
    · exact absurd h (by simp)
    · rw [Option.some.injEq] at h
      rw [← h]
      exact fillLoop_of_ge (by omega)
  | succ n ih =>
    rcases Nat.lt_or_ge pos target with hlt | hge
    · rw [fillLoop_step hlt] at h
      cases fuel2 with
      | zero => omega
      | succ m =>
        rw [fillLoop_step hlt]
        exact ih (by omega) h
    · rw [fillLoop_of_ge hge] at h
      rw [Option.some.injEq] at h
      rw [← h]
      exact fillLoop_of_ge hge

/-- One fit step of the fill pass on a buffer of the form
filled-prefix ++ zero padding, with the cursor at the end of the prefix. -/
theorem fillPass_fit_at_end (pre : List ℚ) (pad : Nat) (clip : List ℚ)
    (rest : List (List ℚ)) (target : Nat)
    (hlen : pre.length + pad = target) (hpos : pre.length < target)
    (hfit : clip.length ≤ pad) :
    fillPass (clip :: rest) (pre ++ List.replicate pad 0) pre.length target =
      fillPass rest ((pre ++ clip) ++ List.replicate (pad - clip.length) 0)
        (pre ++ clip).length target := by
  rw [fillPass_fit hpos (by omega)]
  have h1 : List.take pre.length (pre ++ List.replicate pad 0) = pre := List.take_left _ _
  have h2 : List.drop (pre.length + clip.length) (pre ++ List.replicate pad 0)
      = List.replicate (pad - clip.length) 0 := by
    rw [List.drop_append, List.drop_replicate]
  rw [h1, h2]
  simp [List.length_append]

/-- One truncating step of the fill pass on a buffer of the same shape:
the clip overflows the padding, so only the remaining samples are copied
and the cursor lands on the target. -/
theorem fillPass_trunc_at_end (pre : List ℚ) (pad : Nat) (clip : List ℚ)
    (rest : List (List ℚ)) (target : Nat)
    (hlen : pre.length + pad = target) (hpos : pre.length < target)
    (hbig : pad < clip.length) :
    fillPass (clip :: rest) (pre ++ List.replicate pad 0) pre.length target =
      (pre ++ clip.take pad, target) := by
  rw [fillPass_trunc hpos (by omega)]
  have h1 : List.take pre.length (pre ++ List.replicate pad 0) = pre := List.take_left _ _
  have h2 : List.drop target (pre ++ List.replicate pad 0) = [] :=
    List.drop_eq_nil_of_le (by simp [List.length_append]; omega)
  rw [h1, h2]
  rw [show target - pre.length = pad by omega]
  simp

/-- C2 (amended): with the post-silence-exclusion clip list `[A, B]` where
`A` holds twice as many samples as `B` (A = 2 seconds, B = 1 second at any
rate of `r` samples per second), a 5-second target buffer is filled exactly
with A ++ B ++ A: after the first pass (A, B) the second pass's A exactly
fills the remaining 2 seconds, so the 5-second output contains A, B, A — not
A, B, A, B, truncated-A, which would hold 7 seconds of audio.  Truncation of
the clip that overflows the remaining space does happen when the remainder is
shorter than the clip: a 4-second target yields A, B, then the first second
of A. -/
theorem C2_render_fill (A B : List ℚ) (r : Nat)
    (hA : A.length = 2 * r) (hB : B.length = r) :
    fillBuffer [A, B] (5 * r) = some (A ++ B ++ A) ∧
    (A ++ B ++ A).length = 5 * r ∧
    fillBuffer [A, B] (4 * r) = some (A ++ B ++ A.take r) := by
  rcases Nat.eq_zero_or_pos r with rfl | hr
  · have hA0 : A = [] := List.length_eq_zero.mp (by omega)
    have hB0 : B = [] := List.length_eq_zero.mp (by omega)
    subst hA0; subst hB0
    exact ⟨rfl, rfl, rfl⟩
  · have hpass1 : ∀ T, 3 * r ≤ T →
        fillPass [A, B] (List.replicate T 0) 0 T =
          ((A ++ B) ++ List.replicate (T - 3 * r) 0, (A ++ B).length) := by
      intro T hT
      have h0 : List.replicate T (0 : ℚ) = [] ++ List.replicate T 0 := by
        rw [List.nil_append]
      rw [h0]
      rw [show (0 : Nat) = ([] : List ℚ).length from rfl]
      rw [fillPass_fit_at_end [] T A [B] T (by simp) (by simp; omega) (by omega)]
      rw [List.nil_append]
      rw [fillPass_fit_at_end A (T - A.length) B [] T (by omega) (by omega) (by omega)]
      rw [fillPass]
      rw [show T - A.length - B.length = T - 3 * r by omega]
    refine ⟨?_, by simp [List.length_append]; omega, ?_⟩
    · have hloop : fillLoop 3 [A, B] (List.replicate (5 * r) 0) 0 (5 * r) =
          some (A ++ B ++ A) := by
        rw [fillLoop_step (by omega)]
        rw [hpass1 (5 * r) (by omega)]
        dsimp only
        rw [fillLoop_step (by simp [List.length_append]; omega)]
        rw [fillPass_fit_at_end (A ++ B) (5 * r - 3 * r) A [B]
          (5 * r) (by simp [List.length_append]; omega)
          (by simp [List.length_append]; omega) (by omega)]
        rw [show 5 * r - 3 * r - A.length = 0 by omega]
        rw [List.replicate_zero, List.append_nil]
        rw [fillPass_done (by simp [List.length_append]; omega)]
        dsimp only
        exact fillLoop_of_ge (by simp [List.length_append]; omega)
      rw [fillBuffer]
      exact fillLoop_mono (by omega) hloop
    · have hloop : fillLoop 3 [A, B] (List.replicate (4 * r) 0) 0 (4 * r) =
          some (A ++ B ++ A.take r) := by
        rw [fillLoop_step (by omega)]
        rw [hpass1 (4 * r) (by omega)]
        dsimp only
        rw [fillLoop_step (by simp [List.length_append]; omega)]
        rw [fillPass_trunc_at_end (A ++ B) (4 * r - 3 * r) A [B]
          (4 * r) (by simp [List.length_append]; omega)
          (by simp [List.length_append]; omega) (by omega)]
        dsimp only
        rw [show 4 * r - 3 * r = r by omega]
        exact fillLoop_of_ge (by omega)
      rw [fillBuffer]
      exact fillLoop_mono (by omega) hloop

/-- C2 (counterexample to the claim as stated): at one sample per second,
A = [1, 2] (2 seconds) and B = [3] (1 second) with a 5-second target produce
the buffer [1, 2, 3, 1, 2] = A, B, A; the claimed contents
A, B, A, B, first-second-of-A amount to 7 seconds and differ from the actual
5-second output. -/
theorem C2_counterexample :
    fillBuffer [[1, 2], [(3 : ℚ)]] 5 = some [1, 2, 3, 1, 2] ∧
    ([1, 2, 3, 1, 2] : List ℚ) ≠ [1, 2] ++ [3] ++ [1, 2] ++ [3] ++ [1, 2].take 1 := by
  exact ⟨by decide, by decide⟩

/-- C2 witness: the amended statement instantiated at one sample per second
with A = [1, 2] and B = [3]. -/
theorem C2_render_fill_witness :
    ([1, 2] : List ℚ).length = 2 * 1 ∧ ([(3 : ℚ)] : List ℚ).length = 1 ∧
    (fillBuffer [[1, 2], [(3 : ℚ)]] (5 * 1) = some ([1, 2] ++ [3] ++ [1, 2]) ∧
      (([1, 2] : List ℚ) ++ [3] ++ [1, 2]).length = 5 * 1 ∧
      fillBuffer [[1, 2], [(3 : ℚ)]] (4 * 1) = some ([1, 2] ++ [3] ++ [1, 2].take 1)) :=
  ⟨by decide, by decide, C2_render_fill [1, 2] [3] 1 (by decide) (by decide)⟩

/-! ### Fill-loop termination -/

theorem fillPass_pos_bounds : ∀ (clips : List (List ℚ)) (buf : List ℚ) (pos target : Nat),
    pos ≤ target →
    pos ≤ (fillPass clips buf pos target).2 ∧ (fillPass clips buf pos target).2 ≤ target := by
  intro clips
  induction clips with
  | nil => intro buf pos target h; exact ⟨Nat.le_refl _, h⟩
  | cons clip rest ih =>
    intro buf pos target h
    rw [fillPass]
    split
    · exact ⟨Nat.le_refl _, h⟩
    · rename_i hlt
      dsimp only
      split
      · rename_i hbreak
        constructor
        · omega
        · omega
      · have := ih (List.take pos buf ++ List.take
            (min clip.length (target - pos)) clip ++
            List.drop (pos + min clip.length (target - pos)) buf)
            (pos + min clip.length (target - pos)) target (by omega)
        exact ⟨by omega, this.2⟩

theorem fillPass_progress : ∀ (clips : List (List ℚ)) (buf : List ℚ) (pos target : Nat),
    pos < target → (∃ c ∈ clips, c ≠ []) →
    pos < (fillPass clips buf pos target).2 := by
  intro clips
  induction clips with
  | nil => intro buf pos target _ hex; simp at hex
  | cons clip rest ih =>
    intro buf pos target hlt hex
    rw [fillPass]
    rw [if_neg (by omega)]
    dsimp only
    by_cases hclip : clip = []
    · subst hclip
      rw [show min ([] : List ℚ).length (target - pos) = 0 from by simp]
      simp only [List.length_nil, Nat.add_zero, List.take_nil]
      rw [if_neg (by omega)]
      have hex2 : ∃ c ∈ rest, c ≠ [] := by
        rcases hex with ⟨c, hc, hne⟩
        rcases List.mem_cons.mp hc with rfl | hc2
        · exact absurd rfl hne
        · exact ⟨c, hc2, hne⟩
      exact ih _ pos target hlt hex2
    · have hpos : 0 < clip.length := List.length_pos.mpr hclip
      have hmin : 0 < min clip.length (target - pos) := by omega
      split
      · omega
      · have := fillPass_pos_bounds rest (List.take pos buf ++ List.take
            (min clip.length (target - pos)) clip ++
            List.drop (pos + min clip.length (target - pos)) buf)
            (pos + min clip.length (target - pos)) target (by omega)
        omega

theorem fillLoop_total : ∀ (k : Nat) (clips : List (List ℚ)) (buf : List ℚ)
    (pos target : Nat), (∃ c ∈ clips, c ≠ []) → pos ≤ target → target - pos ≤ k →
    (fillLoop (k + 1) clips buf pos target).isSome = true := by
  intro k
  induction k with
  | zero =>
    intro clips buf pos target _ hle hk
    rw [fillLoop_of_ge (by omega)]
    rfl
  | succ n ih =>
    intro clips buf pos target hex hle hk
    rcases Nat.lt_or_ge pos target with hlt | hge
    · rw [fillLoop_step hlt]
      have hprog := fillPass_progress clips buf pos target hlt hex
      have hbnd := fillPass_pos_bounds clips buf pos target (by omega)
      exact ih clips _ _ target hex hbnd.2 (by omega)
    · rw [fillLoop_of_ge hge]
      rfl

/-- C4 (amended): the render fill loop terminates for every clip list that
contains at least one nonempty clip (each outer iteration then advances the
cursor by at least one sample, so `target + 1` iterations always suffice);
with every clip empty-but-present the loop makes no progress and runs
forever. -/
theorem C4_fill_terminates (clips : List (List ℚ)) (target : Nat)
    (h : ∃ c ∈ clips, c ≠ []) : fillTerminates clips target := by
  refine ⟨target + 1, ?_⟩
  exact fillLoop_total target clips (List.replicate target 0) 0 target h (by omega) (by omega)

/-- C4 (counterexample to the claim as stated): the clip list containing one
decoded clip with zero samples (a zero-frame WAV decodes to an empty array)
is non-empty, yet the fill loop never terminates on it for a 1-sample
target: the cursor never advances, so no fuel bound makes the model finish —
matching the Python `while` loop, which spins forever. -/
theorem C4_counterexample :
    ([([] : List ℚ)] ≠ []) ∧ ¬ fillTerminates [([] : List ℚ)] 1 := by
  constructor
  · simp
  · rintro ⟨fuel, hf⟩
    have hall : ∀ n, fillLoop n [([] : List ℚ)] (List.replicate 1 0) 0 1 = none := by
      intro n
      induction n with
      | zero => rfl
      | succ k ihk =>
        rw [fillLoop_step (by omega)]
        rw [show fillPass [([] : List ℚ)] (List.replicate 1 0) 0 1 =
          (List.replicate 1 0, 0) from rfl]
        exact ihk
    rw [hall fuel] at hf
    simp at hf

/-- C4 witness: the amended statement applied to the one-clip list `[[1]]`
with a 2-sample target. -/
theorem C4_fill_terminates_witness :
    (∃ c ∈ [[(1 : ℚ)]], c ≠ []) ∧ fillTerminates [[(1 : ℚ)]] 2 :=
  ⟨by decide, C4_fill_terminates [[(1 : ℚ)]] 2 (by decide)⟩

/-! ### Normalization lemmas -/

theorem maxAbs_nonneg (buf : List ℚ) : 0 ≤ maxAbs buf := by
  induction buf with
  | nil => exact le_refl 0
  | cons hd tl ih =>
    rw [maxAbs, List.foldr_cons]
    exact le_trans ih (le_max_right _ _)

theorem le_maxAbs {buf : List ℚ} {x : ℚ} (h : x ∈ buf) : |x| ≤ maxAbs buf := by
  induction buf with
  | nil => simp at h
  | cons hd tl ih =>
    rw [maxAbs, List.foldr_cons]
    rcases List.mem_cons.mp h with rfl | h2
    · exact le_max_left _ _
    · exact le_trans (ih h2) (le_max_right _ _)

theorem maxAbs_cons (x : ℚ) (l : List ℚ) : maxAbs (x :: l) = max |x| (maxAbs l) := rfl

theorem maxAbs_map_div (buf : List ℚ) {m : ℚ} (hm : 0 < m) :
    maxAbs (buf.map (fun x => x / m)) = maxAbs buf / m := by
  induction buf with
  | nil => simp [maxAbs, zero_div]
  | cons hd tl ih =>
    rw [List.map_cons, maxAbs_cons, maxAbs_cons, ih]
    rw [abs_div, abs_of_pos hm]
    exact max_div_div_right (le_of_lt hm) _ _

/-- C8: the normalization step of `generate_level_music`: when the peak
absolute amplitude of the filled buffer exceeds 1, the whole buffer is
scaled by the reciprocal of that peak and the new peak is exactly 1; when
the peak is at most 1 (e.g. 0.6) the buffer is left completely unchanged. -/
theorem C8_normalize (buf : List ℚ) :
    (1 < maxAbs buf →
      normalize_buffer buf = buf.map (fun x => x / maxAbs buf) ∧
      maxAbs (normalize_buffer buf) = 1) ∧
    (maxAbs buf ≤ 1 → normalize_buffer buf = buf) := by
  constructor
  · intro hm
    have h1 : normalize_buffer buf = buf.map (fun x => x / maxAbs buf) := by
      rw [normalize_buffer, if_pos hm]
    refine ⟨h1, ?_⟩
    rw [h1, maxAbs_map_div buf (by linarith)]
    exact div_self (by linarith)
  · intro hm
    rw [normalize_buffer, if_neg (by linarith)]

/-- C8 witness: a buffer with peak 2 is rescaled to peak exactly 1; a buffer
with peak 3/5 = 0.6 is left unchanged. -/
theorem C8_normalize_witness :
    (1 < maxAbs [(2 : ℚ)] ∧
      normalize_buffer [(2 : ℚ)] = [(2 : ℚ)].map (fun x => x / maxAbs [(2 : ℚ)]) ∧
      maxAbs (normalize_buffer [(2 : ℚ)]) = 1) ∧
    (maxAbs [(3 : ℚ) / 5] ≤ 1 ∧ normalize_buffer [(3 : ℚ) / 5] = [(3 : ℚ) / 5]) := by
  have h1 : 1 < maxAbs [(2 : ℚ)] := by
    rw [maxAbs, List.foldr_cons, List.foldr_nil]
    rw [abs_of_pos (by norm_num)]
    norm_num
  have h2 : maxAbs [(3 : ℚ) / 5] ≤ 1 := by
    rw [maxAbs, List.foldr_cons, List.foldr_nil]
    rw [abs_of_pos (by norm_num)]
    norm_num
  exact ⟨⟨h1, (C8_normalize [(2 : ℚ)]).1 h1⟩, ⟨h2, (C8_normalize [(3 : ℚ) / 5]).2 h2⟩⟩

/-! ### Permutation invariance of the generator -/

/-- Stable sorting by `sequence_position` is a function of the entry multiset
when the positions are pairwise distinct. -/
theorem insertionSort_eq_of_perm (files1 files2 : List AudioFileRecord)
    (hperm : files1.Perm files2)
    (hnodup : (files1.map (fun e => e.sequence_position)).Nodup) :
    List.insertionSort (fun a b => a.sequence_position ≤ b.sequence_position) files1 =
      List.insertionSort (fun a b => a.sequence_position ≤ b.sequence_position) files2 := by
  haveI : IsTotal AudioFileRecord (fun a b => a.sequence_position ≤ b.sequence_position) :=
    ⟨fun a b => Nat.le_total _ _⟩
  haveI : IsTrans AudioFileRecord (fun a b => a.sequence_position ≤ b.sequence_position) :=
    ⟨fun _ _ _ => Nat.le_trans⟩
  haveI : IsAntisymm AudioFileRecord
      (fun a b => a.sequence_position < b.sequence_position ∨ a = b) := by
    refine ⟨fun a b h1 h2 => ?_⟩
    rcases h1 with h1 | h1
    · rcases h2 with h2 | h2
      · omega
      · exact h2.symm
    · exact h1
  have hsorted : ∀ (l : List AudioFileRecord),
      (l.map (fun e => e.sequence_position)).Nodup →
      List.Sorted (fun a b => a.sequence_position < b.sequence_position ∨ a = b)
        (List.insertionSort (fun a b => a.sequence_position ≤ b.sequence_position) l) := by
    intro l hnd
    have hle := List.sorted_insertionSort
      (fun a b : AudioFileRecord => a.sequence_position ≤ b.sequence_position) l
    have hnd2 : ((List.insertionSort
        (fun a b : AudioFileRecord => a.sequence_position ≤ b.sequence_position) l).map
        (fun e => e.sequence_position)).Nodup :=
      hnd.perm ((List.perm_insertionSort _ l).map _).symm
    rw [List.Nodup, List.pairwise_map] at hnd2
    exact ((hle.and hnd2).imp (fun hab => Or.inl (lt_of_le_of_ne hab.1 hab.2)))
  have h2 : (files2.map (fun e => e.sequence_position)).Nodup :=
    hnodup.perm (hperm.map _)
  refine List.eq_of_perm_of_sorted ?_ (hsorted files1 hnodup) (hsorted files2 h2)
  exact ((List.perm_insertionSort _ files1).trans hperm).trans
    (List.perm_insertionSort _ files2).symm

/-- C9: the rendered buffer is invariant under permutation of the stored
audio-reference list: two records whose `audio_files` lists hold the same
entries with pairwise-distinct `sequence_position` values, in any order,
produce identical `generate_level_music` output, because the generator
re-sorts the entries by `sequence_position` before composing clips. -/
theorem C9_permutation_invariant (load : List Char → Option (List ℚ))
    (files1 files2 : List AudioFileRecord) (target fuel : Nat)
    (hperm : files1.Perm files2)
    (hnodup : (files1.map (fun e => e.sequence_position)).Nodup) :
    generate_level_music load files1 target fuel =
      generate_level_music load files2 target fuel := by
  rw [generate_level_music, generate_level_music,
    insertionSort_eq_of_perm files1 files2 hperm hnodup]

/-- C9 witness: two two-entry lists holding the same entries in opposite
order, with distinct sequence positions. -/
theorem C9_permutation_invariant_witness :
    ([⟨"A".data, "numbered_rhythm".data, 0⟩, ⟨"B".data, "numbered_rhythm".data, 1⟩] :
      List AudioFileRecord).Perm
      [⟨"B".data, "numbered_rhythm".data, 1⟩, ⟨"A".data, "numbered_rhythm".data, 0⟩] ∧
    (([⟨"A".data, "numbered_rhythm".data, 0⟩, ⟨"B".data, "numbered_rhythm".data, 1⟩] :
      List AudioFileRecord).map (fun e => e.sequence_position)).Nodup ∧
    generate_level_music (fun _ => some [(1 : ℚ)])
      [⟨"A".data, "numbered_rhythm".data, 0⟩, ⟨"B".data, "numbered_rhythm".data, 1⟩] 2 3 =
    generate_level_music (fun _ => some [(1 : ℚ)])
      [⟨"B".data, "numbered_rhythm".data, 1⟩, ⟨"A".data, "numbered_rhythm".data, 0⟩] 2 3 :=
  ⟨List.Perm.swap _ _ _, by decide,
    C9_permutation_invariant _ _ _ 2 3 (List.Perm.swap _ _ _) (by decide)⟩

/-! ### Output range of the generator and 16-bit conversion -/

theorem normalize_le_one {buf : List ℚ} {x : ℚ} (hx : x ∈ normalize_buffer buf) :
    |x| ≤ 1 := by
  rw [normalize_buffer] at hx
  split at hx
  · rename_i hm
    obtain ⟨y, hy, rfl⟩ := List.mem_map.mp hx
    have h1 := le_maxAbs hy
    rw [abs_div, abs_of_pos (by linarith : (0 : ℚ) < maxAbs buf)]
    rw [div_le_one (by linarith)]
    exact h1
  · rename_i hm
    push_neg at hm
    exact le_trans (le_maxAbs hx) hm

theorem astype_trunc_bounds {q : ℚ} (h : |q| ≤ 32767) :
    -32768 ≤ astype_trunc q ∧ astype_trunc q ≤ 32767 := by
  rcases abs_le.mp h with ⟨hlo, hhi⟩
  have hfloor : (⌊(32767 : ℚ)⌋ : ℤ) = 32767 := by norm_num
  rw [astype_trunc]
  split
  · rename_i hq
    constructor
    · have : (0 : ℤ) ≤ ⌊q⌋ := Int.floor_nonneg.mpr hq
      omega
    · have := Int.floor_le_floor hhi
      omega
  · rename_i hq
    push_neg at hq
    constructor
    · have h1 : -q ≤ 32767 := by linarith
      have := Int.floor_le_floor h1
      omega
    · have h2 : (0 : ℚ) ≤ -q := by linarith
      have : (0 : ℤ) ≤ ⌊-q⌋ := Int.floor_nonneg.mpr h2
      omega

/-- C10: every buffer returned by `generate_level_music` has all samples in
the closed interval [-1, 1] — guaranteed by the peak-normalization step — so
the 16-bit conversion in `save_music`, which multiplies each sample by 32767
and truncates, always produces values within the signed 16-bit range
[-32768, 32767] and never overflows. -/
theorem C10_output_bounds (load : List Char → Option (List ℚ))
    (audio_files : List AudioFileRecord) (target fuel : Nat) (buf : List ℚ)
    (h : generate_level_music load audio_files target fuel = some buf) :
    (∀ x ∈ buf, -1 ≤ x ∧ x ≤ 1) ∧
    (∀ v ∈ save_music_samples buf, -32768 ≤ v ∧ v ≤ 32767) := by
  rw [generate_level_music] at h
  split at h
  · exact absurd h (by simp)
  · split at h
    · rename_i filled hfl
      rw [Option.some.injEq] at h
      subst h
      constructor
      · intro x hx
        exact abs_le.mp (normalize_le_one hx)
      · intro v hv
        obtain ⟨x, hx, rfl⟩ := List.mem_map.mp hv
        refine astype_trunc_bounds ?_
        rw [abs_mul]
        have h1 : |x| ≤ 1 := normalize_le_one hx
        rw [show |(32767 : ℚ)| = 32767 by norm_num]
        nlinarith [abs_nonneg x]
    · exact absurd h (by simp)

/-- C10 witness: a concrete run of the generator (one clip [1, 0], 3-sample
target) returning the buffer [1, 0, 1], whose samples and converted 16-bit
values lie in range. -/
theorem C10_output_bounds_witness :
    generate_level_music (fun _ => some [(1 : ℚ), 0])
      [⟨"A".data, "numbered_rhythm".data, 0⟩] 3 4 = some [(1 : ℚ), 0, 1] ∧
    (∀ x ∈ [(1 : ℚ), 0, 1], -1 ≤ x ∧ x ≤ 1) ∧
    (∀ v ∈ save_music_samples [(1 : ℚ), 0, 1], -32768 ≤ v ∧ v ≤ 32767) := by
  have hg : generate_level_music (fun _ => some [(1 : ℚ), 0])
      [⟨"A".data, "numbered_rhythm".data, 0⟩] 3 4 = some [(1 : ℚ), 0, 1] := by decide
  exact ⟨hg, (C10_output_bounds _ _ 3 4 _ hg).1, (C10_output_bounds _ _ 3 4 _ hg).2⟩

end Endorfun
